import Mathlib

/-!
Verification development for the `bresenham` module: generation of pixel
coordinates of oriented lines in images.  The module has three operations:

* `line theta rho` — rasterize a `theta`-oriented line of length `rho`
  through the origin (a thin wrapper around `skimage.draw.line`);
* `restrict ii jj height width` — clip a line's pixel coordinates to an
  `height × width` image;
* `parallel_lines theta height width` — all `theta`-oriented parallel
  lines passing through an `height × width` image.

Coordinate sequences are embedded as `List ℤ` pairs (`ii` rows, `jj`
columns).  The floating-point trigonometry feeding the integer core is
embedded over `ℝ` through relations (`IsPyRound`, `IsFmod`) so that the
integer core itself stays executable.
-/

namespace Bresenham

/-- Modelled from the spec: the external digital-line rasterization
primitive (`skimage.draw.line`) consumed by the module, "accepting two
integer endpoints (expressed as (row, column) pairs) and returning the
ordered, 8-connected sequence of integer (row, column) pairs
approximating the straight segment between them, inclusive of both
endpoints" — the classic Bresenham algorithm.  `sklineSteps` is the main
loop: at each step it emits the current point, advances the minor axis
when the error term `d` is non-negative (in the source this is a `while
d >= 0` loop, but the body runs at most once per step because `d < 2*dc`
whenever the loop is entered and the body subtracts `2*dc`), and always
advances the major axis. -/
def sklineSteps (dc dr sc sr : ℤ) : ℕ → ℤ → ℤ → ℤ → List (ℤ × ℤ)
  | 0, _, _, _ => []
  | n + 1, r, c, d =>
      (r, c) ::
        sklineSteps dc dr sc sr n
          (if 0 ≤ d then r + sr else r)
          (c + sc)
          (if 0 ≤ d then d - 2 * dc + 2 * dr else d + 2 * dr)

/-- Modelled from the spec: `skimage.draw.line r0 c0 r1 c1`, the external
digital-line primitive.  When the row extent exceeds the column extent
("steep"), the roles of the two axes are swapped for the main loop and
swapped back when emitting points.  The final endpoint is appended
explicitly.  Returns the row list and the column list. -/
def skline (r0 c0 r1 c1 : ℤ) : List ℤ × List ℤ :=
  let dr := |r1 - r0|
  let dc := |c1 - c0|
  let sr : ℤ := if 0 < r1 - r0 then 1 else -1
  let sc : ℤ := if 0 < c1 - c0 then 1 else -1
  if dr ≤ dc then
    let pts := sklineSteps dc dr sc sr dc.toNat r0 c0 (2 * dr - dc)
    (pts.map Prod.fst ++ [r1], pts.map Prod.snd ++ [c1])
  else
    let pts := sklineSteps dr dc sr sc dr.toNat c0 r0 (2 * dc - dr)
    (pts.map Prod.snd ++ [r1], pts.map Prod.fst ++ [c1])

/-- Rounding relation for Python's `int(round(x))` (round half to even):
`n` is the rounding of the real `x`. -/
def IsPyRound (x : ℝ) (n : ℤ) : Prop :=
  |x - n| < 1 / 2 ∨ (|x - n| = 1 / 2 ∧ n % 2 = 0)

/-- Relation for Python's `math.fmod x y`: the remainder `r` has the sign
of `x` and magnitude smaller than `|y|`, and differs from `x` by an
integer multiple of `y`. -/
def IsFmod (x y r : ℝ) : Prop :=
  ∃ k : ℤ, x = y * k + r ∧ |r| < |y| ∧ (0 ≤ x → 0 ≤ r) ∧ (x ≤ 0 → r ≤ 0)

/-- Relational embedding of `line theta rho` (`bresenham.py` lines 31-35):
the endpoint is `(x2, y2) = (round(rho cos theta), round(rho sin theta))`
and the output is `skimage.draw.line 0 0 y2 x2` (note the row/column
inversion: `y` is the row). -/
def LineRel (theta rho : ℝ) (out : List ℤ × List ℤ) : Prop :=
  ∃ x2 y2 : ℤ, IsPyRound (rho * Real.cos theta) x2 ∧
    IsPyRound (rho * Real.sin theta) y2 ∧ out = skline 0 0 y2 x2

/-- Position one past the last index of `l` satisfying `p`, or `-1` when no
index satisfies `p`; this is the `left_ii` / `left_jj` computation of
`restrict` (`np.nonzero(mask)[0][-1] + 1 if ... else -1`). -/
def leftCut (p : ℤ → Bool) (l : List ℤ) : ℤ :=
  if l.reverse.findIdx p < l.length then (l.length : ℤ) - l.reverse.findIdx p
  else -1

/-- First index of `l` satisfying `p`, or `l.length` when no index does;
this is the `right_ii` / `right_jj` computation of `restrict`
(`np.nonzero(mask)[0][0] if ... else size`). -/
def rightCut (p : ℤ → Bool) (l : List ℤ) : ℕ :=
  l.findIdx p

/-- Main body of `restrict ii jj height width` (`bresenham.py` lines
60-83), defined for non-empty `ii` and `jj` (the `headD`/`getLastD`
defaults are never reached there).  First the directions are detected
from the first and last elements (`ii[0] >= ii[-1]`, `jj[0] <= jj[-1]`)
and a leading portion up to `left` is dropped; if the remainder is empty
it is returned as is; otherwise the directions are re-detected on the
trimmed arrays and a trailing portion from `right` on is dropped. -/
def restrictCore (ii jj : List ℤ) (height width : ℤ) : List ℤ × List ℤ :=
  let i0 := ii.headD 0
  let iN := ii.getLastD 0
  let j0 := jj.headD 0
  let jN := jj.getLastD 0
  let leftI := leftCut (fun x => if iN ≤ i0 then decide (height ≤ x) else decide (x < 0)) ii
  let leftJ := leftCut (fun x => if j0 ≤ jN then decide (x < 0) else decide (width ≤ x)) jj
  let left := max leftI leftJ
  let ii1 := if left ≠ -1 then ii.drop left.toNat else ii
  let jj1 := if left ≠ -1 then jj.drop left.toNat else jj
  if ii1.length = 0 ∨ jj1.length = 0 then (ii1, jj1)
  else
    let i0' := ii1.headD 0
    let iN' := ii1.getLastD 0
    let j0' := jj1.headD 0
    let jN' := jj1.getLastD 0
    let rightI := rightCut (fun x => if iN' ≤ i0' then decide (x < 0) else decide (height ≤ x)) ii1
    let rightJ := rightCut (fun x => if j0' ≤ jN' then decide (width ≤ x) else decide (x < 0)) jj1
    let right := min rightI rightJ
    if right < ii1.length then (ii1.take right, jj1.take right)
    else (ii1, jj1)

/-- Embedding of `restrict ii jj height width` (`bresenham.py` lines
38-83).  The source immediately reads `ii[0]`, `ii[-1]`, `jj[0]`,
`jj[-1]` to detect the per-axis directions; on an empty array this is an
out-of-bounds access, modelled by returning `none`.  On non-empty arrays
every access is in bounds (the second block of reads happens behind the
non-emptiness guard) and the result is `restrictCore`. -/
def restrict (ii jj : List ℤ) (height width : ℤ) : Option (List ℤ × List ℤ) :=
  if ii = [] ∨ jj = [] then none
  else some (restrictCore ii jj height width)

/-- Total version of `restrict` used inside `parallel_lines`, where the
clipped candidates are always built from the (non-empty) seed line, so
the `none` case never arises. -/
def restrictD (ii jj : List ℤ) (height width : ℤ) : List ℤ × List ℤ :=
  (restrict ii jj height width).getD ([], [])

/-- Direction-of-shift test of `parallel_lines` (lines 136 and 149):
`abs (ii[-1] - ii[0]) <= abs (jj[-1] - jj[0])` selects shifting along the
row axis; it is evaluated on the (unchanged) seed line at every
iteration, hence constant over the sweep. -/
def shiftAxis (ii jj : List ℤ) : Bool :=
  decide (|ii.getLastD 0 - ii.headD 0| ≤ |jj.getLastD 0 - jj.headD 0|)

/-- Translate a line by offset `o` along the selected axis (`true` = row
axis). -/
def shiftedLine (ii jj : List ℤ) (rowAxis : Bool) (o : ℤ) : List ℤ × List ℤ :=
  if rowAxis then (ii.map (· + o), jj) else (ii, jj.map (· + o))

/-- One sweep direction of `parallel_lines` (lines 133-142 downwards with
`dir = -1`, lines 146-155 upwards with `dir = 1`): starting at shift
`s = 1`, clip the seed translated by `dir * s`; append the candidate and
continue with `s + 1` while the candidate is non-empty, stop at the first
empty candidate.  `fuel` bounds the recursion; `parallelFuel` below is
large enough that the cutoff is never reached. -/
def sweepLoop (ii jj : List ℤ) (height width dir : ℤ) (rowAxis : Bool) :
    ℕ → ℤ → List (List ℤ × List ℤ)
  | 0, _ => []
  | fuel + 1, s =>
      let sh := shiftedLine ii jj rowAxis (dir * s)
      let c := restrictD sh.1 sh.2 height width
      if c.1 ≠ [] ∧ c.2 ≠ [] then
        c :: sweepLoop ii jj height width dir rowAxis fuel (s + 1)
      else []

/-- Anchored seed line of `parallel_lines` (lines 108-126): rasterize the
segment to `(y2, x2)`, re-express rows with the bottom-left corner as
origin (`ii := height - ii - 1`), then translate by the quadrant corner
offsets `(tx, ty)`. -/
def seedLine (x2 y2 tx ty height : ℤ) : List ℤ × List ℤ :=
  let l := skline 0 0 y2 x2
  (l.1.map (fun v => height - v - 1 + tx), l.2.map (fun v => v + ty))

/-- Fuel bound for the two sweep loops; both loops stop at the first empty
clipped candidate, which happens before the shift moves every coordinate
of the seed out of bounds on one side, well within this bound. -/
def parallelFuel (x2 y2 height width : ℤ) : ℕ :=
  (x2.natAbs + y2.natAbs + height.natAbs + width.natAbs) * 4 + 8

/-- Integer core of `parallel_lines theta height width` (lines 128-157),
parameterized by the rounded endpoint `(x2, y2)` of the seed line and the
corner translation `(tx, ty)` selected from the quadrant of the
normalized angle.  The initial clipped line is always appended (even when
empty); the two sweep loops run only when it is non-empty; the list built
as `initial, down-shifts` is reversed and the up-shifts are appended. -/
def parallel_lines (x2 y2 tx ty height width : ℤ) : List (List ℤ × List ℤ) :=
  let sd := seedLine x2 y2 tx ty height
  let rowAxis := shiftAxis sd.1 sd.2
  let init := restrictD sd.1 sd.2 height width
  if init.1 ≠ [] ∧ init.2 ≠ [] then
    let fuel := parallelFuel x2 y2 height width
    let down := sweepLoop sd.1 sd.2 height width (-1) rowAxis fuel 1
    let up := sweepLoop sd.1 sd.2 height width 1 rowAxis fuel 1
    down.reverse ++ init :: up
  else [init]

/-- Quadrant-to-corner selection of `parallel_lines` (lines 112-126),
applied to the `fmod`-normalized angle `t`: bottom-left for
`t ∈ [0, π/2]`, bottom-right for `t ∈ (π/2, π)`, top-right for
`t ∈ [π, 3π/2]`, top-left otherwise. -/
def quadCorner (t : ℝ) (height width tx ty : ℤ) : Prop :=
  (0 ≤ t ∧ t ≤ Real.pi / 2 ∧ tx = 0 ∧ ty = 0) ∨
  (Real.pi / 2 < t ∧ t < Real.pi ∧ tx = 0 ∧ ty = width - 1) ∨
  (Real.pi ≤ t ∧ t ≤ 3 * Real.pi / 2 ∧ tx = 1 - height ∧ ty = width - 1) ∨
  (¬(0 ≤ t ∧ t ≤ Real.pi / 2) ∧ ¬(Real.pi / 2 < t ∧ t < Real.pi) ∧
    ¬(Real.pi ≤ t ∧ t ≤ 3 * Real.pi / 2) ∧ tx = 1 - height ∧ ty = 0)

/-- Relational embedding of `parallel_lines theta height width` over the
real angle: the angle is normalized by `math.fmod` with `2π`, the seed
endpoint is the rounding of `rho * (cos t, sin t)` with
`rho = 2 * max height width`, the corner translation comes from the
quadrant of the normalized angle, and the output is computed by the
integer core. -/
def ParallelRel (theta : ℝ) (height width : ℤ) (out : List (List ℤ × List ℤ)) : Prop :=
  ∃ t : ℝ, ∃ x2 y2 tx ty : ℤ,
    IsFmod theta (2 * Real.pi) t ∧
    IsPyRound (((2 * max height width : ℤ) : ℝ) * Real.cos t) x2 ∧
    IsPyRound (((2 * max height width : ℤ) : ℝ) * Real.sin t) y2 ∧
    quadCorner t height width tx ty ∧
    out = parallel_lines x2 y2 tx ty height width

/-- Bounds check used to state the spec's guarantees: every row is in
`[0, height)` and every column in `[0, width)`. -/
def lineInBounds (l : List ℤ × List ℤ) (height width : ℤ) : Bool :=
  l.1.all (fun r => decide (0 ≤ r ∧ r < height)) &&
    l.2.all (fun c => decide (0 ≤ c ∧ c < width))

/-! ### Basic facts about the rounding and remainder relations -/

/-- Whole numbers round to themselves. -/
theorem isPyRound_intCast (n : ℤ) : IsPyRound (n : ℝ) n := by
  left
  simp

/-- Rounding is unique: two integers within half a unit of the same real
would have to be two consecutive even integers. -/
theorem isPyRound_unique {x : ℝ} {m n : ℤ} (hm : IsPyRound x m)
    (hn : IsPyRound x n) : m = n := by
  have hm' : |x - m| ≤ 1 / 2 := by
    rcases hm with h | h
    · exact le_of_lt h
    · exact le_of_eq h.1
  have hn' : |x - n| ≤ 1 / 2 := by
    rcases hn with h | h
    · exact le_of_lt h
    · exact le_of_eq h.1
  by_contra hne
  have hmn : (1 : ℝ) ≤ |(m : ℝ) - n| := by
    have h1 : (1 : ℤ) ≤ |m - n| := Int.one_le_abs (sub_ne_zero.mpr hne)
    have h2 : ((|m - n| : ℤ) : ℝ) = |(m : ℝ) - n| := by
      push_cast
      rfl
    calc (1 : ℝ) ≤ ((|m - n| : ℤ) : ℝ) := by exact_mod_cast h1
      _ = |(m : ℝ) - n| := h2
  have htri : |(m : ℝ) - n| ≤ |x - m| + |x - n| := by
    have h3 : (m : ℝ) - n = (x - n) - (x - m) := by ring
    rw [h3]
    calc |(x - n) - (x - m)| ≤ |x - n| + |x - m| := abs_sub (x - n) (x - m)
      _ = |x - m| + |x - n| := by ring
  have hmeq : |x - m| = 1 / 2 := by
    apply le_antisymm hm'
    linarith
  have hneq : |x - n| = 1 / 2 := by
    apply le_antisymm hn'
    linarith
  have hmEven : m % 2 = 0 := by
    rcases hm with h | h
    · rw [hmeq] at h
      norm_num at h
    · exact h.2
  have hnEven : n % 2 = 0 := by
    rcases hn with h | h
    · rw [hneq] at h
      norm_num at h
    · exact h.2
  have hd : |(m : ℝ) - n| ≤ 1 := by linarith
  have hdInt : |m - n| ≤ 1 := by
    have h4 : ((|m - n| : ℤ) : ℝ) ≤ 1 := by
      push_cast
      exact hd
    exact_mod_cast h4
  have h5 := abs_le.mp hdInt
  omega

/-- Existence form for `fmod` when the value is already reduced. -/
theorem isFmod_self {x y : ℝ} (h : |x| < |y|) : IsFmod x y x :=
  ⟨0, by push_cast; ring, h, fun hx => hx, fun hx => hx⟩

/-- The `fmod` remainder is unique for a positive modulus. -/
theorem isFmod_unique {x y r₁ r₂ : ℝ} (hy : 0 < y) (h₁ : IsFmod x y r₁)
    (h₂ : IsFmod x y r₂) : r₁ = r₂ := by
  obtain ⟨k₁, e₁, a₁, p₁, n₁⟩ := h₁
  obtain ⟨k₂, e₂, a₂, p₂, n₂⟩ := h₂
  have hyabs : |y| = y := abs_of_pos hy
  rw [hyabs] at a₁ a₂
  have hdiff : r₁ - r₂ = y * ((k₂ : ℝ) - k₁) := by linarith [e₁, e₂]
  have hkk : |(k₂ : ℝ) - k₁| < 2 := by
    have h1 : |r₁ - r₂| < 2 * y := by
      have b₁ := abs_lt.mp a₁
      have b₂ := abs_lt.mp a₂
      rw [abs_lt]
      constructor <;> linarith
    have h2 : |r₁ - r₂| = y * |(k₂ : ℝ) - k₁| := by
      rw [hdiff, abs_mul, abs_of_pos hy]
    nlinarith [abs_nonneg ((k₂ : ℝ) - k₁)]
  have hk01 : k₂ - k₁ = 0 ∨ k₂ - k₁ = 1 ∨ k₂ - k₁ = -1 := by
    have h6 : |k₂ - k₁| < 2 := by
      have h7 : ((|k₂ - k₁| : ℤ) : ℝ) < 2 := by
        push_cast
        exact hkk
      exact_mod_cast h7
    have h8 := abs_lt.mp h6
    omega
  rcases hk01 with h | h | h
  · have hk : k₂ = k₁ := by omega
    subst hk
    simp at hdiff
    linarith
  · exfalso
    have hkR : (k₂ : ℝ) - k₁ = 1 := by
      have hk : k₂ = k₁ + 1 := by omega
      subst hk
      push_cast
      ring
    rw [hkR, mul_one] at hdiff
    rcases le_or_lt 0 x with hx | hx
    · have q₁ := p₁ hx
      have q₂ := p₂ hx
      have h9 := (abs_lt.mp a₁).2
      linarith
    · have q₁ := n₁ (le_of_lt hx)
      have q₂ := n₂ (le_of_lt hx)
      have h9 := (abs_lt.mp a₂).1
      linarith
  · exfalso
    have hkR : (k₂ : ℝ) - k₁ = -1 := by
      have hk : k₂ = k₁ - 1 := by omega
      subst hk
      push_cast
      ring
    rw [hkR] at hdiff
    rcases le_or_lt 0 x with hx | hx
    · have q₁ := p₁ hx
      have q₂ := p₂ hx
      have h9 := (abs_lt.mp a₂).2
      linarith
    · have q₁ := n₁ (le_of_lt hx)
      have q₂ := n₂ (le_of_lt hx)
      have h9 := (abs_lt.mp a₁).1
      linarith

/-- The four quadrant cases are mutually exclusive, so the corner
translation is a function of the normalized angle. -/
theorem quadCorner_unique {t : ℝ} {height width tx ty tx' ty' : ℤ}
    (h : quadCorner t height width tx ty)
    (h' : quadCorner t height width tx' ty') : tx = tx' ∧ ty = ty' := by
  have hpi := Real.pi_pos
  rcases h with ⟨u1, u2, e1, e2⟩ | ⟨u1, u2, e1, e2⟩ | ⟨u1, u2, e1, e2⟩ |
    ⟨u1, u2, u3, e1, e2⟩ <;>
    rcases h' with ⟨v1, v2, f1, f2⟩ | ⟨v1, v2, f1, f2⟩ | ⟨v1, v2, f1, f2⟩ |
      ⟨v1, v2, v3, f1, f2⟩ <;>
    first
      | exact ⟨e1.trans f1.symm, e2.trans f2.symm⟩
      | (exfalso; first
          | linarith
          | exact v1 ⟨u1, u2⟩
          | exact u1 ⟨v1, v2⟩
          | exact v2 ⟨u1, u2⟩
          | exact u2 ⟨v1, v2⟩
          | exact v3 ⟨u1, u2⟩
          | exact u3 ⟨v1, v2⟩)

/-! ### Structural lemmas about `restrict` -/

/-- Position-one-past-last-match is `-1` when the predicate holds
nowhere. -/
theorem leftCut_eq_neg_one {p : ℤ → Bool} {l : List ℤ}
    (h : ∀ x ∈ l, p x = false) : leftCut p l = -1 := by
  unfold leftCut
  have h1 : l.reverse.findIdx p = l.reverse.length :=
    List.findIdx_eq_length.mpr (fun x hx => h x (List.mem_reverse.mp hx))
  rw [h1, List.length_reverse]
  simp

/-- On a non-empty line that is already fully inside the rectangle, the
clipper finds nothing to trim on either side and returns the line
unchanged in content. -/
theorem restrict_inbounds_id {ii jj : List ℤ} {height width : ℤ}
    (hii : ii ≠ []) (hjj : jj ≠ []) (hlen : ii.length = jj.length)
    (hbi : ∀ x ∈ ii, 0 ≤ x ∧ x < height)
    (hbj : ∀ x ∈ jj, 0 ≤ x ∧ x < width) :
    restrict ii jj height width = some (ii, jj) := by
  have hpi : ∀ b : Bool, ∀ x ∈ ii,
      (if b = true then decide (height ≤ x) else decide (x < 0)) = false := by
    intro b x hx
    rcases hbi x hx with ⟨h0, h1⟩
    cases b <;> simp <;> omega
  have hpj : ∀ b : Bool, ∀ x ∈ jj,
      (if b = true then decide (x < 0) else decide (width ≤ x)) = false := by
    intro b x hx
    rcases hbj x hx with ⟨h0, h1⟩
    cases b <;> simp <;> omega
  rw [restrict, if_neg (by simp [hii, hjj])]
  unfold restrictCore
  have hLI : leftCut (fun x =>
      if ii.getLastD 0 ≤ ii.headD 0 then decide (height ≤ x) else decide (x < 0)) ii = -1 := by
    apply leftCut_eq_neg_one
    intro x hx
    rcases hbi x hx with ⟨h0, h1⟩
    split <;> simp <;> omega
  have hLJ : leftCut (fun x =>
      if jj.headD 0 ≤ jj.getLastD 0 then decide (x < 0) else decide (width ≤ x)) jj = -1 := by
    apply leftCut_eq_neg_one
    intro x hx
    rcases hbj x hx with ⟨h0, h1⟩
    split <;> simp <;> omega
  simp only [hLI, hLJ, max_self, ne_eq, not_true_eq_false, if_false, reduceIte]
  rw [if_neg (by simp [hii, hjj, List.length_eq_zero])]
  have hRI : rightCut (fun x =>
      if ii.getLastD 0 ≤ ii.headD 0 then decide (x < 0) else decide (height ≤ x)) ii
      = ii.length := by
    apply List.findIdx_eq_length.mpr
    intro x hx
    rcases hbi x hx with ⟨h0, h1⟩
    split <;> simp <;> omega
  have hRJ : rightCut (fun x =>
      if jj.headD 0 ≤ jj.getLastD 0 then decide (width ≤ x) else decide (x < 0)) jj
      = jj.length := by
    apply List.findIdx_eq_length.mpr
    intro x hx
    rcases hbj x hx with ⟨h0, h1⟩
    split <;> simp <;> omega
  simp only [hRI, hRJ, hlen, min_self, lt_irrefl, if_false, reduceIte]

/-- The clipper drops the same number of elements from the row list and
the column list, so it preserves equality of lengths. -/
theorem restrict_length_eq {ii jj a b : List ℤ} {height width : ℤ}
    (h : restrict ii jj height width = some (a, b))
    (hlen : ii.length = jj.length) : a.length = b.length := by
  rw [restrict] at h
  split at h
  · exact absurd h (by simp)
  · rw [Option.some_inj] at h
    rw [restrictCore] at h
    set lI := leftCut (fun x =>
      if ii.getLastD 0 ≤ ii.headD 0 then decide (height ≤ x) else decide (x < 0)) ii with hlI
    set lJ := leftCut (fun x =>
      if jj.headD 0 ≤ jj.getLastD 0 then decide (x < 0) else decide (width ≤ x)) jj with hlJ
    simp only at h
    set ii1 := if max lI lJ ≠ -1 then ii.drop (max lI lJ).toNat else ii with hii1
    set jj1 := if max lI lJ ≠ -1 then jj.drop (max lI lJ).toNat else jj with hjj1
    have hlen1 : ii1.length = jj1.length := by
      rw [hii1, hjj1]
      split <;> simp [hlen]
    rcases ite_eq_iff.mp h with ⟨hg, h2⟩ | ⟨hg, h2⟩
    · rw [Prod.mk.injEq] at h2
      rw [← h2.1, ← h2.2]
      exact hlen1
    · rcases ite_eq_iff.mp h2 with ⟨hc, h3⟩ | ⟨hc, h3⟩ <;>
        rw [Prod.mk.injEq] at h3 <;> rw [← h3.1, ← h3.2] <;>
        simp [hlen1]

/-! ### The claims -/

/-- Claim C1 (code bug): `restrict` does not always return the maximal
in-bounds contiguous sub-sequence.  On the genuine rasterized segment
`skimage.draw.line 4 (-1) 5 1 = ([4,5,5], [-1,0,1])` — monotonic in both
axes — clipped to a `5 × 5` image, no coordinate pair is in bounds, so
the claimed output is the empty line; the code instead returns
`([5,5], [0,1])`, which contains rows equal to `5 ≥ height`.  The trimmed
remainder is constant in the row axis, so the direction re-detection
takes the non-increasing branch and the right-hand mask checks `row < 0`
instead of `row ≥ height`. -/
theorem restrict_c1_out_of_bounds :
    skline 4 (-1) 5 1 = ([4, 5, 5], [-1, 0, 1]) ∧
    restrict [4, 5, 5] [-1, 0, 1] 5 5 = some ([5, 5], [0, 1]) ∧
    lineInBounds ([5, 5], [0, 1]) 5 5 = false := by
  refine ⟨by decide, by decide, by decide⟩

/-- Claim C10 (confirmed): `restrict` performs an out-of-bounds read
(i.e. is undefined) exactly when one of its coordinate arrays is empty;
with at least one element in each array every access it performs is in
bounds and a result is returned. -/
theorem restrict_defined_iff (ii jj : List ℤ) (height width : ℤ) :
    (restrict ii jj height width).isSome = true ↔ (ii ≠ [] ∧ jj ≠ []) := by
  rw [restrict]
  split <;> rename_i h
  · simp only [Option.isSome_none, Bool.false_eq_true, false_iff]
    intro hc
    rcases h with h | h
    · exact hc.1 h
    · exact hc.2 h
  · push_neg at h
    simp [h]

/-- Claim C4 (counterexample): idempotence fails as stated because the
outer application is not defined on an empty inner result: on the line
`([-1], [-1])` (fully out of a `5 × 5` image) the inner `restrict`
returns the empty line, and `restrict` applied to empty arrays performs
an out-of-bounds read (`none`) instead of returning that empty line. -/
theorem restrict_c4_counterexample :
    restrict [-1] [-1] 5 5 = some ([], []) ∧
    restrict [] [] 5 5 = none := by
  refine ⟨by decide, by decide⟩

/-- Claim C4 (amended): idempotence holds whenever the inner application
returns a non-empty line that lies fully inside the rectangle: applying
`restrict` to such a result returns it unchanged. -/
theorem restrict_restrict {ii jj a b : List ℤ} {height width : ℤ}
    (hlen : ii.length = jj.length)
    (h : restrict ii jj height width = some (a, b)) (ha : a ≠ [])
    (hba : ∀ x ∈ a, 0 ≤ x ∧ x < height)
    (hbb : ∀ x ∈ b, 0 ≤ x ∧ x < width) :
    restrict a b height width = some (a, b) := by
  have hab : a.length = b.length := restrict_length_eq h hlen
  have hb : b ≠ [] := by
    intro hcon
    rw [hcon] at hab
    simp [List.length_eq_zero] at hab
    exact ha hab
  exact restrict_inbounds_id ha hb hab hba hbb

/-- Witness for the amended claim C4 at a concrete line: the inner
application trims `([0,1], [-1,0])` to `([1], [0])` inside a `2 × 2`
image, and the outer application returns that unchanged. -/
theorem restrict_restrict_witness :
    restrict [1] [0] 2 2 = some ([1], [0]) :=
  @restrict_restrict [0, 1] [-1, 0] [1] [0] 2 2 (by decide) (by decide)
    (by decide) (by decide) (by decide)

/-! ### Facts about concrete normalized angles -/

/-- Zero is its own `fmod` remainder. -/
theorem isFmod_zero : IsFmod 0 (2 * Real.pi) 0 := by
  apply isFmod_self
  rw [abs_zero, abs_of_pos (by positivity : (0 : ℝ) < 2 * Real.pi)]
  positivity

/-- Angle `0` lies in the first quadrant case with the bottom-left
corner. -/
theorem quadCorner_zero (height width : ℤ) : quadCorner 0 height width 0 0 :=
  Or.inl ⟨le_refl 0, by positivity, rfl, rfl⟩

/-- Claim C3 (confirmed): for `theta = 0` on a `5 × 5` image,
`parallel_lines` returns exactly five horizontal lines, one per row `0`
to `4` in increasing sweep order, each spanning columns `0..4`. -/
theorem parallel_lines_c3 (out : List (List ℤ × List ℤ)) :
    ParallelRel 0 5 5 out ↔
      out = [([0, 0, 0, 0, 0], [0, 1, 2, 3, 4]),
             ([1, 1, 1, 1, 1], [0, 1, 2, 3, 4]),
             ([2, 2, 2, 2, 2], [0, 1, 2, 3, 4]),
             ([3, 3, 3, 3, 3], [0, 1, 2, 3, 4]),
             ([4, 4, 4, 4, 4], [0, 1, 2, 3, 4])] := by
  have h2pi : (0 : ℝ) < 2 * Real.pi := by positivity
  have hcos : ((2 * max (5 : ℤ) 5 : ℤ) : ℝ) * Real.cos 0 = ((10 : ℤ) : ℝ) := by
    rw [Real.cos_zero]
    norm_num
  have hsin : ((2 * max (5 : ℤ) 5 : ℤ) : ℝ) * Real.sin 0 = ((0 : ℤ) : ℝ) := by
    rw [Real.sin_zero]
    norm_num
  have hrx : IsPyRound (((2 * max (5 : ℤ) 5 : ℤ) : ℝ) * Real.cos 0) 10 := by
    rw [hcos]
    exact isPyRound_intCast 10
  have hry : IsPyRound (((2 * max (5 : ℤ) 5 : ℤ) : ℝ) * Real.sin 0) 0 := by
    rw [hsin]
    exact isPyRound_intCast 0
  constructor
  · rintro ⟨t, x2, y2, tx, ty, hf, hx, hy, hq, rfl⟩
    have ht : t = 0 := isFmod_unique h2pi hf isFmod_zero
    subst ht
    have hx2 : x2 = 10 := isPyRound_unique hx hrx
    have hy2 : y2 = 0 := isPyRound_unique hy hry
    obtain ⟨htx, hty⟩ := quadCorner_unique hq (quadCorner_zero 5 5)
    subst hx2; subst hy2; subst htx; subst hty
    decide
  · rintro rfl
    exact ⟨0, 10, 0, 0, 0, isFmod_zero, hrx, hry, quadCorner_zero 5 5, by decide⟩

/-- Claim C5 (counterexample): `line(theta = 0, rho = -5)` does not
raise an invalid-input error; it returns the six-point segment from the
origin to `(0, -5)` (the direction opposite the angle). -/
theorem line_c5_negative_rho :
    LineRel 0 (-5) ([0, 0, 0, 0, 0, 0], [0, -1, -2, -3, -4, -5]) := by
  refine ⟨-5, 0, ?_, ?_, by decide⟩
  · left
    rw [Real.cos_zero]
    norm_num
  · left
    rw [Real.sin_zero]
    norm_num

/-- Both coordinate lists produced by the rasterization primitive are
non-empty (the final endpoint is always appended). -/
theorem skline_ne_nil (r0 c0 r1 c1 : ℤ) :
    (skline r0 c0 r1 c1).1 ≠ [] ∧ (skline r0 c0 r1 c1).2 ≠ [] := by
  simp only [skline]
  by_cases hmain : |r1 - r0| ≤ |c1 - c0| <;> simp [hmain]

/-- The rasterized segment starts at its first endpoint. -/
theorem skline_head (r0 c0 r1 c1 : ℤ) :
    (skline r0 c0 r1 c1).1.head? = some r0 ∧
    (skline r0 c0 r1 c1).2.head? = some c0 := by
  simp only [skline]
  by_cases hmain : |r1 - r0| ≤ |c1 - c0|
  · rw [if_pos hmain]
    cases hn : (|c1 - c0|).toNat with
    | zero =>
      have hc0 : |c1 - c0| = 0 := by
        have h1 := abs_nonneg (c1 - c0)
        omega
      have hc : c1 = c0 := by
        rw [abs_eq_zero, sub_eq_zero] at hc0
        exact hc0
      have hr : r1 = r0 := by
        rw [hc0] at hmain
        have h2 := abs_nonneg (r1 - r0)
        have h3 : |r1 - r0| = 0 := le_antisymm hmain h2
        rw [abs_eq_zero, sub_eq_zero] at h3
        exact h3
      subst hc
      subst hr
      simp [hn, sklineSteps]
    | succ n =>
      simp [hn, sklineSteps]
  · rw [if_neg hmain]
    cases hn : (|r1 - r0|).toNat with
    | zero =>
      exfalso
      push_neg at hmain
      have h1 := abs_nonneg (c1 - c0)
      have h2 := abs_nonneg (r1 - r0)
      omega
    | succ n =>
      simp [hn, sklineSteps]

/-- Claim C5 (amended): the operations perform no input validation.  For
every angle and every length — in particular negative lengths — `line`
returns the rasterized segment to the rounded endpoint: a non-empty line
starting at the origin, never an error. -/
theorem line_c5_no_validation (theta rho : ℝ) (x2 y2 : ℤ)
    (hx : IsPyRound (rho * Real.cos theta) x2)
    (hy : IsPyRound (rho * Real.sin theta) y2) :
    LineRel theta rho (skline 0 0 y2 x2) ∧
    (skline 0 0 y2 x2).1 ≠ [] ∧ (skline 0 0 y2 x2).2 ≠ [] ∧
    (skline 0 0 y2 x2).1.head? = some 0 ∧
    (skline 0 0 y2 x2).2.head? = some 0 :=
  ⟨⟨x2, y2, hx, hy, rfl⟩, (skline_ne_nil 0 0 y2 x2).1,
    (skline_ne_nil 0 0 y2 x2).2, (skline_head 0 0 y2 x2).1,
    (skline_head 0 0 y2 x2).2⟩

/-- Witness for the amended claim C5 at `theta = 0`, `rho = -5`. -/
theorem line_c5_no_validation_witness :
    LineRel 0 (-5) (skline 0 0 0 (-5)) ∧
    (skline 0 0 0 (-5)).1 ≠ [] ∧ (skline 0 0 0 (-5)).2 ≠ [] ∧
    (skline 0 0 0 (-5)).1.head? = some 0 ∧
    (skline 0 0 0 (-5)).2.head? = some 0 :=
  line_c5_no_validation 0 (-5) (-5) 0
    (by left; rw [Real.cos_zero]; norm_num)
    (by left; rw [Real.sin_zero]; norm_num)

/-- Claim C6 (counterexample): `math.fmod` preserves the sign of its
argument, so the angles `π/2` and `π/2 - 2π` — equal modulo `2π` — are
normalized to themselves, and the quadrant switch anchors the first at
the bottom-left corner `(0, 0)` but the second (negative) at the
top-left corner `(1 - height, 0)`. -/
theorem quadCorner_c6_counterexample :
    (Real.pi / 2) - (Real.pi / 2 - 2 * Real.pi) = 2 * Real.pi * ((1 : ℤ) : ℝ) ∧
    IsFmod (Real.pi / 2) (2 * Real.pi) (Real.pi / 2) ∧
    quadCorner (Real.pi / 2) 5 5 0 0 ∧
    IsFmod (Real.pi / 2 - 2 * Real.pi) (2 * Real.pi) (Real.pi / 2 - 2 * Real.pi) ∧
    quadCorner (Real.pi / 2 - 2 * Real.pi) 5 5 (1 - 5) 0 ∧
    (0 : ℤ) ≠ 1 - 5 := by
  have hpi := Real.pi_pos
  refine ⟨by push_cast; ring, ?_, ?_, ?_, ?_, by decide⟩
  · exact isFmod_self (by
      rw [abs_of_pos (by linarith), abs_of_pos (by linarith)]
      linarith)
  · exact Or.inl ⟨by positivity, le_refl _, rfl, rfl⟩
  · exact isFmod_self (by
      rw [abs_of_neg (by linarith), abs_of_pos (by linarith)]
      linarith)
  · refine Or.inr (Or.inr (Or.inr ⟨?_, ?_, ?_, rfl, rfl⟩))
    · rintro ⟨h1, -⟩
      linarith
    · rintro ⟨h1, -⟩
      linarith
    · rintro ⟨h1, -⟩
      linarith

/-- Claim C6 (amended): the normalization uses `math.fmod`, which keeps
the sign of the angle.  Two nonnegative angles that are equal modulo
`2π` are normalized identically and anchored at the same corner, while
every negative normalized angle falls through the three quadrant tests
and anchors at the top-left corner. -/
theorem quadCorner_c6_amended :
    (∀ (θ₁ θ₂ t₁ t₂ : ℝ) (height width tx₁ ty₁ tx₂ ty₂ k : ℤ),
      0 ≤ θ₁ → 0 ≤ θ₂ → θ₁ - θ₂ = 2 * Real.pi * (k : ℝ) →
      IsFmod θ₁ (2 * Real.pi) t₁ → IsFmod θ₂ (2 * Real.pi) t₂ →
      quadCorner t₁ height width tx₁ ty₁ →
      quadCorner t₂ height width tx₂ ty₂ → tx₁ = tx₂ ∧ ty₁ = ty₂) ∧
    (∀ (t : ℝ) (height width tx ty : ℤ), t < 0 →
      quadCorner t height width tx ty → tx = 1 - height ∧ ty = 0) := by
  have h2pi : (0 : ℝ) < 2 * Real.pi := by positivity
  constructor
  · intro θ₁ θ₂ t₁ t₂ height width tx₁ ty₁ tx₂ ty₂ k hθ₁ hθ₂ hk hf₁ hf₂ hq₁ hq₂
    obtain ⟨k₁, e₁, a₁, p₁, -⟩ := hf₁
    obtain ⟨k₂, e₂, a₂, p₂, -⟩ := hf₂
    rw [abs_of_pos h2pi] at a₁ a₂
    have ht₁0 : 0 ≤ t₁ := p₁ hθ₁
    have ht₂0 : 0 ≤ t₂ := p₂ hθ₂
    have ht₁b : t₁ < 2 * Real.pi := by
      have h := (abs_lt.mp a₁).2
      linarith
    have ht₂b : t₂ < 2 * Real.pi := by
      have h := (abs_lt.mp a₂).2
      linarith
    have hcast : ((k - k₁ + k₂ : ℤ) : ℝ) = (k : ℝ) - k₁ + k₂ := by push_cast; ring
    have hm : t₁ - t₂ = 2 * Real.pi * ((k - k₁ + k₂ : ℤ) : ℝ) := by
      rw [hcast]
      linarith
    have hsmall : |((k - k₁ + k₂ : ℤ) : ℝ)| < 1 := by
      have habs : |t₁ - t₂| < 2 * Real.pi := abs_lt.mpr ⟨by linarith, by linarith⟩
      rw [hm, abs_mul, abs_of_pos h2pi] at habs
      nlinarith [abs_nonneg ((k - k₁ + k₂ : ℤ) : ℝ)]
    have hz : k - k₁ + k₂ = 0 := by
      have h6 : |k - k₁ + k₂| < 1 := by exact_mod_cast hsmall
      have h8 := abs_lt.mp h6
      omega
    have ht : t₁ = t₂ := by
      rw [hz] at hm
      simp at hm
      linarith
    rw [← ht] at hq₂
    exact quadCorner_unique hq₁ hq₂
  · intro t height width tx ty hneg hq
    have hpi := Real.pi_pos
    rcases hq with ⟨h1, -⟩ | ⟨h1, h2, -⟩ | ⟨h1, -⟩ | ⟨-, -, -, e1, e2⟩
    · linarith
    · linarith
    · linarith
    · exact ⟨e1, e2⟩

/-- Witness for the amended claim C6: the angle `0` (taken twice, shift
`k = 0`) anchors both times at the bottom-left corner. -/
theorem quadCorner_c6_amended_witness : (0 : ℤ) = 0 ∧ (0 : ℤ) = 0 :=
  quadCorner_c6_amended.1 0 0 0 0 5 5 0 0 0 0 0 le_rfl le_rfl
    (by push_cast; ring) isFmod_zero isFmod_zero (quadCorner_zero 5 5)
    (quadCorner_zero 5 5)

/-- Claim C7 (code bug): at `theta = arccos (-7/10)` (a finite angle in
the second quadrant) and a `1 × 1` image, `parallel_lines` returns two
lines instead of the single point `(0, 0)`: the sweep keeps the
out-of-bounds candidate `([0], [-1])` because the clipper's trimmed
remainder degenerates to single elements whose direction re-detection
masks the wrong side. -/
theorem parallel_lines_c7_not_single_point :
    ParallelRel (Real.arccos (-(7 / 10))) 1 1 [([0], [0]), ([0], [-1])] ∧
    ([([0], [0]), ([0], [-1])] : List (List ℤ × List ℤ)).length = 2 ∧
    lineInBounds ([0], [-1]) 1 1 = false := by
  have hpi := Real.pi_pos
  have ht0 : 0 ≤ Real.arccos (-(7 / 10)) := Real.arccos_nonneg _
  have htpi : Real.arccos (-(7 / 10)) ≤ Real.pi := Real.arccos_le_pi _
  have hcos : Real.cos (Real.arccos (-(7 / 10))) = -(7 / 10) :=
    Real.cos_arccos (by norm_num) (by norm_num)
  have hsin : Real.sin (Real.arccos (-(7 / 10))) = Real.sqrt (51 / 100) := by
    rw [Real.sin_arccos]
    norm_num
  have hhalf : Real.pi / 2 < Real.arccos (-(7 / 10)) := by
    rcases lt_or_le (Real.pi / 2) (Real.arccos (-(7 / 10))) with h | h
    · exact h
    · exact absurd (Real.arccos_le_pi_div_two.mp h) (by norm_num)
  have htlt : Real.arccos (-(7 / 10)) < Real.pi := by
    rcases lt_or_le (Real.arccos (-(7 / 10))) Real.pi with h | h
    · exact h
    · exact absurd (le_antisymm htpi h) (fun he =>
        absurd (Real.arccos_eq_pi.mp he) (by norm_num))
  refine ⟨⟨Real.arccos (-(7 / 10)), -1, 1, 0, 0, ?_, ?_, ?_, ?_, by decide⟩,
    by decide, by decide⟩
  · exact isFmod_self (by
      rw [abs_of_nonneg ht0, abs_of_pos (by linarith)]
      linarith)
  · left
    have hc : ((2 * max (1 : ℤ) 1 : ℤ) : ℝ) = 2 := by norm_num
    rw [hc, hcos]
    norm_num [abs_lt]
  · left
    have hc : ((2 * max (1 : ℤ) 1 : ℤ) : ℝ) = 2 := by norm_num
    rw [hc, hsin]
    have hlo : (1 / 4 : ℝ) < Real.sqrt (51 / 100) :=
      (Real.lt_sqrt (by norm_num)).mpr (by norm_num)
    have hhi : Real.sqrt (51 / 100) < 3 / 4 :=
      (Real.sqrt_lt (by norm_num) (by norm_num)).mpr (by norm_num)
    rw [abs_lt]
    constructor <;> push_cast <;> linarith
  · exact Or.inr (Or.inl ⟨hhalf, htlt, rfl, by decide⟩)

/-- Claim C2 (code bug): at `theta = arccos (-4/5)` (finite) on a `2 × 2`
image, the list returned by `parallel_lines` contains the line
`([1], [-2])`, whose column `-2` is out of bounds — the clipper bug
propagates into the family guarantee. -/
theorem parallel_lines_c2_out_of_bounds :
    ParallelRel (Real.arccos (-(4 / 5))) 2 2
      [([0], [1]), ([1, 0], [1, 0]), ([1], [0]), ([1], [-2])] ∧
    (([1], [-2]) ∈
      ([([0], [1]), ([1, 0], [1, 0]), ([1], [0]), ([1], [-2])] :
        List (List ℤ × List ℤ))) ∧
    lineInBounds ([1], [-2]) 2 2 = false := by
  have hpi := Real.pi_pos
  have ht0 : 0 ≤ Real.arccos (-(4 / 5)) := Real.arccos_nonneg _
  have htpi : Real.arccos (-(4 / 5)) ≤ Real.pi := Real.arccos_le_pi _
  have hcos : Real.cos (Real.arccos (-(4 / 5))) = -(4 / 5) :=
    Real.cos_arccos (by norm_num) (by norm_num)
  have hsin : Real.sin (Real.arccos (-(4 / 5))) = 3 / 5 := by
    rw [Real.sin_arccos]
    have h1 : (1 - (-(4 / 5) : ℝ) ^ 2) = (3 / 5 : ℝ) ^ 2 := by norm_num
    rw [h1, Real.sqrt_sq (by norm_num)]
  have hhalf : Real.pi / 2 < Real.arccos (-(4 / 5)) := by
    rcases lt_or_le (Real.pi / 2) (Real.arccos (-(4 / 5))) with h | h
    · exact h
    · exact absurd (Real.arccos_le_pi_div_two.mp h) (by norm_num)
  have htlt : Real.arccos (-(4 / 5)) < Real.pi := by
    rcases lt_or_le (Real.arccos (-(4 / 5))) Real.pi with h | h
    · exact h
    · exact absurd (le_antisymm htpi h) (fun he =>
        absurd (Real.arccos_eq_pi.mp he) (by norm_num))
  refine ⟨⟨Real.arccos (-(4 / 5)), -3, 2, 0, 1, ?_, ?_, ?_, ?_, by decide⟩,
    by decide, by decide⟩
  · exact isFmod_self (by
      rw [abs_of_nonneg ht0, abs_of_pos (by linarith)]
      linarith)
  · left
    have hc : ((2 * max (2 : ℤ) 2 : ℤ) : ℝ) = 4 := by norm_num
    rw [hc, hcos]
    norm_num [abs_lt]
  · left
    have hc : ((2 * max (2 : ℤ) 2 : ℤ) : ℝ) = 4 := by norm_num
    rw [hc, hsin]
    norm_num [abs_lt]
  · exact Or.inr (Or.inl ⟨hhalf, htlt, rfl, by decide⟩)

/-! ### Structure of the rasterized line

The Bresenham loop is re-expressed as an iterated step function so that
the emitted points can be described pointwise: the major coordinate
advances by `sc` every step, and the minor coordinate is a unit-step
monotone function of the index whose final link to the appended endpoint
is controlled by the error-term invariant. -/

/-- One iteration of the Bresenham loop state `(r, c, d)`. -/
def brStep (dc dr sc sr : ℤ) (s : ℤ × ℤ × ℤ) : ℤ × ℤ × ℤ :=
  (if 0 ≤ s.2.2 then s.1 + sr else s.1, s.2.1 + sc,
   if 0 ≤ s.2.2 then s.2.2 - 2 * dc + 2 * dr else s.2.2 + 2 * dr)

/-- The Bresenham loop state after `n` iterations. -/
def brIter (dc dr sc sr : ℤ) : ℕ → ℤ × ℤ × ℤ → ℤ × ℤ × ℤ
  | 0, s => s
  | n + 1, s => brIter dc dr sc sr n (brStep dc dr sc sr s)

theorem brIter_succ (dc dr sc sr : ℤ) (n : ℕ) (s : ℤ × ℤ × ℤ) :
    brIter dc dr sc sr (n + 1) s =
      brStep dc dr sc sr (brIter dc dr sc sr n s) := by
  induction n generalizing s with
  | zero => rfl
  | succ n ih =>
      show brIter dc dr sc sr (n + 1) (brStep dc dr sc sr s) = _
      rw [ih]
      rfl

/-- The emitted points of the loop are the states at indices `0..n-1`. -/
theorem sklineSteps_eq_map (dc dr sc sr : ℤ) :
    ∀ (n : ℕ) (r c d : ℤ),
      sklineSteps dc dr sc sr n r c d =
        (List.range n).map (fun k =>
          ((brIter dc dr sc sr k (r, c, d)).1,
           (brIter dc dr sc sr k (r, c, d)).2.1)) := by
  intro n
  induction n with
  | zero => intro r c d; rfl
  | succ n ih =>
      intro r c d
      rw [sklineSteps, ih, List.range_succ_eq_map]
      simp only [List.map_cons, List.map_map]
      refine congrArg₂ List.cons rfl ?_
      apply List.map_congr_left
      intro k _
      rfl

/-- The major coordinate advances by exactly `sc` each iteration. -/
theorem brIter_major (dc dr sc sr : ℤ) (n : ℕ) (r c d : ℤ) :
    (brIter dc dr sc sr n (r, c, d)).2.1 = c + n * sc := by
  induction n generalizing r c d with
  | zero => simp [brIter]
  | succ n ih =>
      rw [brIter_succ]
      simp only [brStep]
      rw [ih]
      push_cast
      ring

/-- The minor coordinate either stays or advances by `sr` each
iteration. -/
theorem brIter_minor_step (dc dr sc sr : ℤ) (n : ℕ) (s : ℤ × ℤ × ℤ) :
    (brIter dc dr sc sr (n + 1) s).1 = (brIter dc dr sc sr n s).1 ∨
    (brIter dc dr sc sr (n + 1) s).1 = (brIter dc dr sc sr n s).1 + sr := by
  rw [brIter_succ]
  unfold brStep
  split <;> simp

/-- Error-term invariant: after `k` iterations the minor coordinate has
advanced `m` times and the error term records the balance
`d + 2 k dr - 2 dc m`. -/
theorem brIter_balance (dc dr sc sr : ℤ) (n : ℕ) (r c d : ℤ) :
    ∃ m : ℤ, 0 ≤ m ∧ (brIter dc dr sc sr n (r, c, d)).1 = r + sr * m ∧
      (brIter dc dr sc sr n (r, c, d)).2.2 = d + 2 * n * dr - 2 * dc * m := by
  induction n with
  | zero => exact ⟨0, le_refl 0, by simp [brIter], by simp [brIter]⟩
  | succ n ih =>
      obtain ⟨m, hm0, hr, hd⟩ := ih
      rw [brIter_succ]
      unfold brStep
      split <;> rename_i hcond
      · refine ⟨m + 1, by linarith, ?_, ?_⟩
        · show (brIter dc dr sc sr n (r, c, d)).1 + sr = _
          rw [hr]
          ring
        · show (brIter dc dr sc sr n (r, c, d)).2.2 - 2 * dc + 2 * dr = _
          rw [hd]
          push_cast
          ring
      · refine ⟨m, hm0, ?_, ?_⟩
        · exact hr
        · show (brIter dc dr sc sr n (r, c, d)).2.2 + 2 * dr = _
          rw [hd]
          push_cast
          ring

/-- The error term stays within `[-2 dc, 2 dc)` throughout the loop. -/
theorem brIter_d_bounds (dc dr sc sr : ℤ) (hdr : 0 ≤ dr) (hdrdc : dr ≤ dc)
    (hdc : 0 < dc) (n : ℕ) (s : ℤ × ℤ × ℤ)
    (h0 : -(2 * dc) ≤ s.2.2 ∧ s.2.2 < 2 * dc) :
    -(2 * dc) ≤ (brIter dc dr sc sr n s).2.2 ∧
      (brIter dc dr sc sr n s).2.2 < 2 * dc := by
  induction n with
  | zero => exact h0
  | succ n ih =>
      rw [brIter_succ]
      unfold brStep
      split <;> rename_i hcond <;> constructor <;> simp only <;> omega

/-- Minor-coordinate function of a rasterized run of `n + 1` points: the
loop values at indices `0..n-1` and the endpoint `sr * dr` at index
`n`. -/
def minorFun (dc dr sc sr : ℤ) (n k : ℕ) : ℤ :=
  if k = n then sr * dr
  else (brIter dc dr sc sr k (0, 0, 2 * dr - dc)).1

/-- A sign factor times the matching absolute value recovers the
original integer. -/
theorem sign_mul_abs (a : ℤ) : (if 0 < a then (1 : ℤ) else -1) * |a| = a := by
  rcases lt_trichotomy 0 a with h | h | h
  · rw [if_pos h, abs_of_pos h]
    ring
  · rw [← h]
    simp
  · rw [if_neg (by omega), abs_of_neg h]
    ring

/-- The run starts at minor coordinate `0`. -/
theorem minorFun_zero (dc dr sc sr : ℤ) (n : ℕ) (hdr : 0 ≤ dr)
    (hdc : (n : ℤ) = dc) (hdrdc : dr ≤ dc) :
    minorFun dc dr sc sr n 0 = 0 := by
  unfold minorFun
  split <;> rename_i hcase
  · have hdc0 : dc = 0 := by omega
    have hdr0 : dr = 0 := by omega
    rw [hdr0]
    ring
  · simp [brIter]

/-- Unit steps of the minor coordinate, including the final link to the
appended endpoint (via the error-term invariant). -/
theorem minorFun_step (dc dr sc sr : ℤ) (n : ℕ) (hdr : 0 ≤ dr)
    (hdc : (n : ℤ) = dc) (hdrdc : dr ≤ dc) :
    ∀ k < n, minorFun dc dr sc sr n (k + 1) = minorFun dc dr sc sr n k ∨
      minorFun dc dr sc sr n (k + 1) = minorFun dc dr sc sr n k + sr := by
  intro k hk
  by_cases hlast : k + 1 = n
  · have hkn : k ≠ n := by omega
    rw [minorFun, if_pos hlast, minorFun, if_neg hkn]
    have hdcpos : 0 < dc := by omega
    obtain ⟨m, hm0, hr, hd⟩ := brIter_balance dc dr sc sr k 0 0 (2 * dr - dc)
    have hb := brIter_d_bounds dc dr sc sr hdr hdrdc hdcpos k
      (0, 0, 2 * dr - dc) (by constructor <;> simp <;> omega)
    rw [hd] at hb
    have hkval : (k : ℤ) = dc - 1 := by omega
    rw [hkval] at hb
    have hm : m = dr - 1 ∨ m = dr := by
      rcases hb with ⟨hb1, hb2⟩
      have ht2 : 2 * dr - 1 - 2 * m < 2 := by
        have h9 : dc * (2 * dr - 1 - 2 * m) < dc * 2 := by nlinarith
        exact lt_of_mul_lt_mul_left h9 (le_of_lt hdcpos)
      have ht1 : -2 ≤ 2 * dr - 1 - 2 * m := by
        have h9 : dc * (-2) ≤ dc * (2 * dr - 1 - 2 * m) := by nlinarith
        exact le_of_mul_le_mul_left h9 hdcpos
      omega
    rw [hr]
    rcases hm with hm | hm
    · right
      rw [hm]
      ring
    · left
      rw [hm]
      ring
  · have hkn : k ≠ n := by omega
    rw [minorFun, if_neg hlast, minorFun, if_neg hkn]
    exact brIter_minor_step dc dr sc sr k (0, 0, 2 * dr - dc)

/-- The run ends at the appended endpoint. -/
theorem minorFun_last (dc dr sc sr : ℤ) (n : ℕ) :
    minorFun dc dr sc sr n n = sr * dr := by
  unfold minorFun
  rw [if_pos rfl]

/-- Major-coordinate function of a rasterized run: index times sign. -/
def majorFun (sc : ℤ) (k : ℕ) : ℤ := (k : ℤ) * sc

/-- Characterization of the rasterized segment from the origin in the
non-steep case: the columns advance by the sign `sc` every index and the
rows are the minor-coordinate run. -/
theorem skline_eq_nonsteep (x2 y2 : ℤ) (h : |y2| ≤ |x2|) :
    skline 0 0 y2 x2 =
      ((List.range (|x2|.toNat + 1)).map
        (minorFun |x2| |y2| (if 0 < x2 then 1 else -1)
          (if 0 < y2 then 1 else -1) |x2|.toNat),
       (List.range (|x2|.toNat + 1)).map
        (majorFun (if 0 < x2 then 1 else -1))) := by
  simp only [skline, sub_zero]
  rw [if_pos h]
  rw [sklineSteps_eq_map]
  rw [Prod.mk.injEq]
  constructor
  · rw [List.range_succ, List.map_append, List.map_map]
    congr 1
    · apply List.map_congr_left
      intro k hk
      have hkn : k ≠ |x2|.toNat := by
        have := List.mem_range.mp hk
        omega
      simp only [Function.comp_apply, minorFun, if_neg hkn]
    · simp only [List.map_cons, List.map_nil, minorFun, if_pos rfl]
      rw [sign_mul_abs]
      simp
  · rw [List.range_succ, List.map_append, List.map_map]
    congr 1
    · apply List.map_congr_left
      intro k hk
      simp only [Function.comp_apply, brIter_major, majorFun]
      ring
    · simp only [List.map_cons, List.map_nil, majorFun]
      rw [Int.toNat_of_nonneg (abs_nonneg x2), mul_comm]
      rw [sign_mul_abs]

/-- Characterization of the rasterized segment from the origin in the
steep case: the rows advance by the sign `sr` every index and the
columns are the minor-coordinate run. -/
theorem skline_eq_steep (x2 y2 : ℤ) (h : ¬(|y2| ≤ |x2|)) :
    skline 0 0 y2 x2 =
      ((List.range (|y2|.toNat + 1)).map
        (majorFun (if 0 < y2 then 1 else -1)),
       (List.range (|y2|.toNat + 1)).map
        (minorFun |y2| |x2| (if 0 < y2 then 1 else -1)
          (if 0 < x2 then 1 else -1) |y2|.toNat)) := by
  simp only [skline, sub_zero]
  rw [if_neg h]
  rw [sklineSteps_eq_map]
  rw [Prod.mk.injEq]
  constructor
  · rw [List.range_succ, List.map_append, List.map_map]
    congr 1
    · apply List.map_congr_left
      intro k hk
      simp only [Function.comp_apply, brIter_major, majorFun]
      ring
    · simp only [List.map_cons, List.map_nil, majorFun]
      rw [Int.toNat_of_nonneg (abs_nonneg y2), mul_comm]
      rw [sign_mul_abs]
  · rw [List.range_succ, List.map_append, List.map_map]
    congr 1
    · apply List.map_congr_left
      intro k hk
      have hkn : k ≠ |y2|.toNat := by
        have := List.mem_range.mp hk
        omega
      simp only [Function.comp_apply, minorFun, if_neg hkn]
    · simp only [List.map_cons, List.map_nil, minorFun, if_pos rfl]
      rw [sign_mul_abs]
      simp

/-! ### Toolkit for lists of the form `(List.range n).map f` -/

theorem rmap_length (f : ℕ → ℤ) (n : ℕ) : ((List.range n).map f).length = n := by
  simp

theorem rmap_ne_nil (f : ℕ → ℤ) {n : ℕ} (hn : 0 < n) :
    (List.range n).map f ≠ [] := by
  intro hcon
  have h1 := congrArg List.length hcon
  simp at h1
  omega

theorem rmap_getD (f : ℕ → ℤ) {n k : ℕ} (hk : k < n) :
    ((List.range n).map f).getD k 0 = f k := by
  rw [List.getD_eq_getElem?_getD, List.getElem?_map, List.getElem?_range hk]
  rfl

theorem mem_rmap {f : ℕ → ℤ} {n : ℕ} {x : ℤ} :
    x ∈ (List.range n).map f ↔ ∃ k, k < n ∧ f k = x := by
  simp [List.mem_map, List.mem_range]

theorem rmap_headD (f : ℕ → ℤ) {n : ℕ} (hn : 0 < n) :
    ((List.range n).map f).headD 0 = f 0 := by
  have h1 : ((List.range n).map f).headD 0 = ((List.range n).map f).getD 0 0 := by
    cases hl : (List.range n).map f with
    | nil => simp
    | cons a t => simp [List.getD_cons_zero]
  rw [h1, rmap_getD f hn]

theorem rmap_getLastD (f : ℕ → ℤ) {n : ℕ} (hn : 0 < n) :
    ((List.range n).map f).getLastD 0 = f (n - 1) := by
  rw [List.getLastD_eq_getLast?, List.getLast?_eq_getElem?]
  rw [List.length_map, List.length_range]
  rw [List.getElem?_map, List.getElem?_range (by omega : n - 1 < n)]
  rfl

theorem rmap_drop (f : ℕ → ℤ) {n : ℕ} (m : ℕ) (hm : m ≤ n) :
    ((List.range n).map f).drop m =
      (List.range (n - m)).map (fun k => f (m + k)) := by
  rw [← List.map_drop]
  have h1 : List.range n = List.range m ++ (List.range (n - m)).map (m + ·) := by
    rw [← List.range_add]
    congr 1
    omega
  rw [h1]
  have h2 : (List.range m).length = m := List.length_range m
  rw [List.drop_left' h2, List.map_map]
  rfl

theorem rmap_take (f : ℕ → ℤ) {n : ℕ} (m : ℕ) (hm : m ≤ n) :
    ((List.range n).map f).take m = (List.range m).map f := by
  rw [← List.map_take, List.take_range, min_eq_left hm]

/-- First index at which a predicate holds, general list version. -/
theorem findIdx_eq_of_first {p : ℤ → Bool} :
    ∀ (l : List ℤ) (k : ℕ), k < l.length → p (l.getD k 0) = true →
      (∀ j, j < k → p (l.getD j 0) = false) → l.findIdx p = k := by
  intro l
  induction l with
  | nil =>
      intro k hk
      simp at hk
  | cons a t ih =>
      intro k hk hpk hprev
      cases k with
      | zero =>
          rw [List.getD_cons_zero] at hpk
          rw [List.findIdx_cons p a t, hpk]
          rfl
      | succ k =>
          have ha : p a = false := by
            have h1 := hprev 0 (Nat.succ_pos k)
            rwa [List.getD_cons_zero] at h1
          rw [List.findIdx_cons p a t, ha]
          show t.findIdx p + 1 = k + 1
          congr 1
          apply ih
          · simpa using hk
          · rwa [List.getD_cons_succ] at hpk
          · intro j hj
            have h2 := hprev (j + 1) (by omega)
            rwa [List.getD_cons_succ] at h2

theorem rmap_findIdx_eq {p : ℤ → Bool} {f : ℕ → ℤ} {n k : ℕ} (hk : k < n)
    (ht : p (f k) = true) (hprev : ∀ j, j < k → p (f j) = false) :
    ((List.range n).map f).findIdx p = k := by
  apply findIdx_eq_of_first
  · rw [rmap_length]
    exact hk
  · rwa [rmap_getD f hk]
  · intro j hj
    rw [rmap_getD f (by omega : j < n)]
    exact hprev j hj

theorem rmap_findIdx_len {p : ℤ → Bool} {f : ℕ → ℤ} {n : ℕ}
    (hall : ∀ k, k < n → p (f k) = false) :
    ((List.range n).map f).findIdx p = n := by
  have h1 : ((List.range n).map f).findIdx p = ((List.range n).map f).length :=
    List.findIdx_eq_length.mpr (by
      intro x hx
      obtain ⟨k, hk, rfl⟩ := mem_rmap.mp hx
      exact hall k hk)
  rw [h1, rmap_length]

/-- The reverse of a range-map is the range-map of the reflected
function. -/
theorem rmap_reverse (f : ℕ → ℤ) (n : ℕ) :
    ((List.range n).map f).reverse =
      (List.range n).map (fun k => f (n - 1 - k)) := by
  apply List.ext_getElem
  · simp
  · intro i h1 h2
    rw [List.getElem_reverse]
    simp only [List.getElem_map, List.getElem_range, List.length_map,
      List.length_range]

/-- `leftCut` when the predicate holds nowhere on a range-map. -/
theorem rmap_leftCut_neg {p : ℤ → Bool} {f : ℕ → ℤ} {n : ℕ}
    (hall : ∀ k, k < n → p (f k) = false) :
    leftCut p ((List.range n).map f) = -1 := by
  apply leftCut_eq_neg_one
  intro x hx
  obtain ⟨k, hk, rfl⟩ := mem_rmap.mp hx
  exact hall k hk

/-- `leftCut` when the predicate holds everywhere on a non-empty
range-map. -/
theorem rmap_leftCut_len {p : ℤ → Bool} {f : ℕ → ℤ} {n : ℕ} (hn : 0 < n)
    (hall : ∀ k, k < n → p (f k) = true) :
    leftCut p ((List.range n).map f) = (n : ℤ) := by
  unfold leftCut
  rw [rmap_reverse]
  have h1 : ((List.range n).map (fun k => f (n - 1 - k))).findIdx p = 0 := by
    apply rmap_findIdx_eq hn
    · exact hall (n - 1 - 0) (by omega)
    · intro j hj
      omega
  rw [h1, rmap_length]
  rw [if_pos hn]
  simp

/-- `leftCut` when the predicate holds exactly on the first `m` indices
(`0 < m < n`) of a range-map. -/
theorem rmap_leftCut_prefix {p : ℤ → Bool} {f : ℕ → ℤ} {n m : ℕ}
    (hm : 0 < m) (hmn : m ≤ n)
    (htrue : ∀ k, k < m → p (f k) = true)
    (hfalse : ∀ k, m ≤ k → k < n → p (f k) = false) :
    leftCut p ((List.range n).map f) = (m : ℤ) := by
  unfold leftCut
  rw [rmap_reverse]
  have h1 : ((List.range n).map (fun k => f (n - 1 - k))).findIdx p = n - m := by
    apply rmap_findIdx_eq (by omega : n - m < n)
    · have h2 : n - 1 - (n - m) = m - 1 := by omega
      rw [h2]
      exact htrue (m - 1) (by omega)
    · intro j hj
      have h3 : m ≤ n - 1 - j := by omega
      exact hfalse (n - 1 - j) h3 (by omega)
  rw [h1, rmap_length]
  rw [if_pos (by omega : n - m < n)]
  have h4 : ((n - m : ℕ) : ℤ) = (n : ℤ) - m := by omega
  rw [h4]
  ring

/-! ### Unit-step functions -/

/-- Bounds along a function which steps by `0` or `+1`. -/
theorem stepfun_up_bounds {f : ℕ → ℤ} {n : ℕ}
    (hstep : ∀ k, k + 1 < n → f (k + 1) = f k ∨ f (k + 1) = f k + 1) :
    ∀ i j, i ≤ j → j < n → f i ≤ f j ∧ f j ≤ f i + ((j : ℤ) - i) := by
  intro i j hij hj
  induction j with
  | zero =>
      have h1 : i = 0 := by omega
      subst h1
      simp
  | succ j ih =>
      by_cases hcase : i = j + 1
      · subst hcase
        simp
      · have hij' : i ≤ j := by omega
        have hjn : j < n := by omega
        obtain ⟨h1, h2⟩ := ih hij' hjn
        rcases hstep j hj with h3 | h3 <;> rw [h3] <;> constructor <;>
          push_cast <;> omega

/-- Bounds along a function which steps by `0` or `-1`. -/
theorem stepfun_down_bounds {f : ℕ → ℤ} {n : ℕ}
    (hstep : ∀ k, k + 1 < n → f (k + 1) = f k ∨ f (k + 1) = f k - 1) :
    ∀ i j, i ≤ j → j < n → f j ≤ f i ∧ f i - ((j : ℤ) - i) ≤ f j := by
  intro i j hij hj
  induction j with
  | zero =>
      have h1 : i = 0 := by omega
      subst h1
      simp
  | succ j ih =>
      by_cases hcase : i = j + 1
      · subst hcase
        simp
      · have hij' : i ≤ j := by omega
        have hjn : j < n := by omega
        obtain ⟨h1, h2⟩ := ih hij' hjn
        rcases hstep j hj with h3 | h3 <;> rw [h3] <;> constructor <;>
          push_cast <;> omega

/-! ### Generic helpers for `leftCut` and `findIdx` -/

theorem headD_eq_getD {l : List ℤ} (h : l ≠ []) : l.headD 0 = l.getD 0 0 := by
  cases l with
  | nil => exact absurd rfl h
  | cons a t => simp [List.getD_cons_zero]

theorem findIdx_zero_of_head {p : ℤ → Bool} {l : List ℤ} (hne : l ≠ [])
    (hp : p (l.headD 0) = true) : l.findIdx p = 0 := by
  cases l with
  | nil => exact absurd rfl hne
  | cons a t =>
      simp only [List.headD_cons] at hp
      rw [List.findIdx_cons p a t, hp]
      rfl

theorem leftCut_all_true {p : ℤ → Bool} {l : List ℤ} (hne : l ≠ [])
    (hall : ∀ x ∈ l, p x = true) : leftCut p l = (l.length : ℤ) := by
  unfold leftCut
  have h0 : l.reverse.findIdx p = 0 := by
    apply findIdx_zero_of_head
    · simpa using hne
    · apply hall
      have h1 : l.reverse ≠ [] := by simpa using hne
      have h2 : l.reverse.headD 0 ∈ l.reverse := by
        cases hr : l.reverse with
        | nil => exact absurd hr h1
        | cons a t => simp
      exact List.mem_reverse.mp h2
  rw [h0]
  have hlen : 0 < l.length := List.length_pos.mpr hne
  rw [if_pos hlen]
  simp

end Bresenham
